import Mathlib

/-!
Shallow embedding of the `vector` package (a generic, resizable dynamic array
with functional configuration options) and proofs about its claims.

A Go slice value is modelled by `GoSlice`: `buf` is the backing array that the
slice can reach (exactly `cap` cells, all slicing in the source keeps offset 0),
and `len` is the slice length.  A Go runtime panic (index out of range, slice
bounds out of range, `make` with `len > cap`) is modelled as `Option.none`.
The zero value of the element type is `default` (`lo.FromPtr(new(T))` in the
source).  Go's builtin `append` may round the grown capacity of a reallocation
up to an allocation size class; `goGrow` keeps the pre-rounding value
(`max needed (2*cap)`); no theorem below depends on the exact grown capacity
of a builtin append reallocation.
-/

namespace VectorGo

/-- Read `n` cells of `l` starting at `a` (the segment `[a, a+n)`). -/
def readRange (l : List α) (a n : Nat) : List α := (l.drop a).take n

/-- Overwrite the cells `[a, a + p.length)` of `l` with `p`; identity when the
segment does not fit (all uses are guarded so that it fits). -/
def writeRange (l : List α) (a : Nat) (p : List α) : List α :=
  if a + p.length ≤ l.length then l.take a ++ p ++ l.drop (a + p.length) else l

/-- A Go slice: backing cells reachable through the slice, and the length. -/
structure GoSlice (α : Type) where
  buf : List α
  len : Nat
deriving DecidableEq

/-- `cap` of a Go slice: number of backing cells. -/
def GoSlice.cap (s : GoSlice α) : Nat := s.buf.length

/-- `make([]T, n)`: `n` zero-valued cells, length `n`, capacity `n`. -/
def smake (α : Type) [Inhabited α] (n : Nat) : GoSlice α :=
  ⟨List.replicate n default, n⟩

/-- Read `s[i]`; Go panics unless `0 ≤ i < len(s)`. -/
def sindex (s : GoSlice α) (i : Int) : Option α :=
  if 0 ≤ i ∧ i < (s.len : Int) then s.buf.get? i.toNat else none

/-- Write `s[i] = x`; Go panics unless `0 ≤ i < len(s)`. -/
def sset (s : GoSlice α) (i : Int) (x : α) : Option (GoSlice α) :=
  if 0 ≤ i ∧ i < (s.len : Int) then some ⟨s.buf.set i.toNat x, s.len⟩ else none

/-- Reslice `s[:k]`; Go panics unless `0 ≤ k ≤ cap(s)`.  Keeps the backing
cells (stale values past `k` stay in the array). -/
def sslice (s : GoSlice α) (k : Int) : Option (GoSlice α) :=
  if 0 ≤ k ∧ k ≤ (s.cap : Int) then some ⟨s.buf, k.toNat⟩ else none

/-- Capacity chosen by `append` when it must reallocate: at least the needed
length, at least double the old capacity (Go may round this up further to an
allocation size class; nothing below depends on the exact value). -/
def goGrow (needed oldCap : Nat) : Nat := max needed (2 * oldCap)

/-- `append(s, x)` with one element: in place when `len < cap`, otherwise a
fresh backing array of capacity `goGrow (len+1) cap`. -/
def appendOne [Inhabited α] (s : GoSlice α) (x : α) : GoSlice α :=
  if s.len < s.cap then ⟨s.buf.set s.len x, s.len + 1⟩
  else
    ⟨s.buf.take s.len ++ [x] ++
      List.replicate (goGrow (s.len + 1) s.cap - (s.len + 1)) default, s.len + 1⟩

/-- `append(s, xs...)` with a batch of elements (one growth decision). -/
def appendMany [Inhabited α] (s : GoSlice α) (xs : List α) : GoSlice α :=
  if s.len + xs.length ≤ s.cap then ⟨writeRange s.buf s.len xs, s.len + xs.length⟩
  else
    ⟨s.buf.take s.len ++ xs ++
      List.replicate (goGrow (s.len + xs.length) s.cap - (s.len + xs.length)) default,
      s.len + xs.length⟩

/-- `copy(s[dLow:], s[sLow:sHigh])` inside one slice (memmove semantics:
the source segment is read before the destination is written).  Go panics
unless `dLow ≤ len(s)`, `sLow ≤ sHigh ≤ cap(s)`. -/
def copyWithin (s : GoSlice α) (dLow sLow sHigh : Nat) : Option (GoSlice α) :=
  if dLow ≤ s.len ∧ sLow ≤ sHigh ∧ sHigh ≤ s.cap then
    some ⟨writeRange s.buf dLow (readRange s.buf sLow (min (s.len - dLow) (sHigh - sLow))),
      s.len⟩
  else none

/-- Write `x` into the cells `[a, b)`; Go panics unless every index is below
the slice length. -/
def fillRange (s : GoSlice α) (a b : Nat) (x : α) : Option (GoSlice α) :=
  if b ≤ s.len then some ⟨writeRange s.buf a (List.replicate (b - a) x), s.len⟩ else none

/-- The `Vector[T]` struct: slice `data` plus the bookkeeping fields `size`
and `capacity` (which the source keeps separately from `cap(v.data)`). -/
structure Vector (α : Type) where
  data : GoSlice α
  size : Nat
  capacity : Nat
deriving DecidableEq

/-- The logical element sequence: the first `size` backing cells. -/
def logical (v : Vector α) : List α := v.data.buf.take v.size

/-- Well-formed state: the logical elements fit in the slice and the slice
fits in its backing array.  Every state reachable without a `WithCapacity`
option shrinking the slice below `size` satisfies it. -/
def WF (v : Vector α) : Prop :=
  v.size ≤ v.data.len ∧ v.data.len ≤ v.data.buf.length

instance (v : Vector α) : Decidable (WF v) := by unfold WF; infer_instance

/-- The public configuration options of the package. -/
inductive Opt (α : Type) where
  | withCapacity (c : Int)
  | withValues (vs : List α)
  | withSize (n : Int) (d : α)
  | withFill (c : Int) (x : α)
  | fromSlice (vs : List α)

/-- Apply one option to the vector under construction (each option is a
closure mutating the instance). -/
def applyOpt [Inhabited α] (v : Vector α) : Opt α → Vector α
  | .withCapacity c =>
      let c1 := (if c < 0 then 0 else c).toNat
      { v with data := smake α c1, capacity := c1 }
  | .withValues vs =>
      let d := appendMany v.data vs
      { data := d, size := d.len,
        capacity := if v.capacity < d.len then d.len else v.capacity }
  | .withSize n dv =>
      let n1 := (if n < 0 then 0 else n).toNat
      let d := (List.range n1).foldl (fun s i => ⟨s.buf.set i dv, s.len⟩) (smake α n1)
      { data := d, size := n1, capacity := n1 }
  | .withFill c x =>
      let d := (List.range c.toNat).foldl (fun s _ => appendOne s x) v.data
      { data := d, size := d.len,
        capacity := if v.capacity < d.len then d.len else v.capacity }
  | .fromSlice vs =>
      let d := appendMany v.data vs
      { data := d, size := d.len, capacity := d.len }

/-- `New(options...)`: start from the empty instance and apply the options in
argument order. -/
def New [Inhabited α] (opts : List (Opt α)) : Vector α :=
  opts.foldl applyOpt { data := smake α 0, size := 0, capacity := 0 }

/-- `Size()`. -/
def Size (v : Vector α) : Nat := v.size

/-- `Capacity()` (the bookkeeping field, not `cap(v.data)`). -/
def Capacity (v : Vector α) : Nat := v.capacity

/-- `Empty()`. -/
def Emptyq (v : Vector α) : Bool := v.size == 0

/-- `At(index)`: bounds-checked element access; returns the zero value
together with the error on a bad index. -/
def At [Inhabited α] (v : Vector α) (index : Int) : Option (α × Option String) :=
  if index < 0 ∨ (v.size : Int) ≤ index then some (default, some "index out of bounds")
  else (sindex v.data index).map (fun x => (x, none))

/-- `Front()`. -/
def Front [Inhabited α] (v : Vector α) : Option (α × Option String) :=
  if v.size = 0 then some (default, some "vector is empty")
  else (sindex v.data 0).map (fun x => (x, none))

/-- `Back()`. -/
def Back [Inhabited α] (v : Vector α) : Option (α × Option String) :=
  if v.size = 0 then some (default, some "vector is empty")
  else (sindex v.data ((v.size : Int) - 1)).map (fun x => (x, none))

/-- `growCapacity()`: 1 from capacity 0, otherwise double (based on
`cap(v.data)`). -/
def growCapacity (v : Vector α) : Nat := if v.data.cap = 0 then 1 else 2 * v.data.cap

/-- The private `reserve(newCapacity)`: `newData := make([]T, v.size,
newCapacity)` (panics when `v.size > newCapacity`), copy
`min(v.size, len(v.data))` elements, adopt the new array, set the capacity
field. -/
def reserveImpl [Inhabited α] (v : Vector α) (newCapacity : Nat) : Option (Vector α) :=
  if v.size ≤ newCapacity then
    some { data := ⟨readRange v.data.buf 0 (min v.size v.data.len) ++
                     List.replicate (newCapacity - min v.size v.data.len) default,
                   v.size⟩,
           size := v.size, capacity := newCapacity }
  else none

/-- `PushBack(value)`: grow when `size == cap(v.data)`, reslice to
`size+1`, store, increment size. -/
def PushBack [Inhabited α] (v : Vector α) (x : α) : Option (Vector α) :=
  (if v.size = v.data.cap then reserveImpl v (growCapacity v) else some v).bind fun v1 =>
  (sslice v1.data ((v.size : Int) + 1)).bind fun d2 =>
  (sset d2 (v.size : Int) x).bind fun d3 =>
  some { data := d3, size := v.size + 1, capacity := v1.capacity }

/-- `PopBack()`: error on an empty vector, otherwise decrement `size`
(the slice itself is not resliced). -/
def PopBack (v : Vector α) : Option String × Vector α :=
  if v.size = 0 then (some "vector is empty", v)
  else (none, { v with size := v.size - 1 })

/-- `Insert(index, value)`: bounds check `0 ≤ index ≤ size`, grow when full,
append a zero value, shift `[index, size)` one cell right, store, increment
size. -/
def Insert [Inhabited α] (v : Vector α) (index : Int) (x : α) :
    Option (Option String × Vector α) :=
  if index < 0 ∨ (v.size : Int) < index then some (some "index out of bounds", v)
  else
    (if v.size = v.data.cap then reserveImpl v (growCapacity v) else some v).bind fun v1 =>
    (copyWithin (appendOne v1.data default) (index.toNat + 1) index.toNat v.size).bind
      fun d3 =>
    (sset d3 index x).bind fun d4 =>
    some (none, { data := d4, size := v.size + 1, capacity := v1.capacity })

/-- `Erase(index)`: bounds check `0 ≤ index < size`, shift `[index+1, size)`
one cell left, decrement size, reslice. -/
def Erase (v : Vector α) (index : Int) : Option (Option String × Vector α) :=
  if index < 0 ∨ (v.size : Int) ≤ index then some (some "index out of bounds", v)
  else
    (copyWithin v.data index.toNat (index.toNat + 1) v.size).bind fun d1 =>
    (sslice d1 ((v.size : Int) - 1)).bind fun d2 =>
    some (none, { data := d2, size := v.size - 1, capacity := v.capacity })

/-- `Clear()`: `size = 0`, `data = data[:0]`; the capacity field and the
backing array are untouched. -/
def Clear (v : Vector α) : Vector α :=
  { data := ⟨v.data.buf, 0⟩, size := 0, capacity := v.capacity }

/-- `Reserve(newCapacity)`: reallocate only when strictly above
`cap(v.data)`. -/
def Reserve [Inhabited α] (v : Vector α) (newCapacity : Int) : Option (Vector α) :=
  if (v.data.cap : Int) < newCapacity then reserveImpl v newCapacity.toNat else some v

/-- `Resize(newSize, value)`: clamp the argument at 0, reserve when above
`cap(v.data)`, reslice, fill the newly exposed cells when growing, set
size. -/
def Resize [Inhabited α] (v : Vector α) (newSize : Int) (x : α) : Option (Vector α) :=
  let n := (if newSize < 0 then 0 else newSize).toNat
  let oldSize := v.size
  (if v.data.cap < n then reserveImpl v n else some v).bind fun v1 =>
  (sslice v1.data (n : Int)).bind fun d2 =>
  (if oldSize < n then fillRange d2 oldSize n x else some d2).bind fun d3 =>
  some { data := d3, size := n, capacity := v1.capacity }

/-- `Swap(other)`: exchange the three fields of the two instances; the result
is the pair (receiver, argument) after the call.  Go evaluates both sides of
each parallel assignment before assigning, so a self-swap is the identity. -/
def Swap (v other : Vector α) : Vector α × Vector α :=
  ({ data := other.data, size := other.size, capacity := other.capacity },
   { data := v.data, size := v.size, capacity := v.capacity })

/-- `At` as a state-passing method: the body reads fields and never assigns
to them, so the receiver after a completed call is the receiver before it. -/
def AtM [Inhabited α] (v : Vector α) (i : Int) : Option ((α × Option String) × Vector α) :=
  (At v i).map (fun r => (r, v))

/-- `Front` as a state-passing method. -/
def FrontM [Inhabited α] (v : Vector α) : Option ((α × Option String) × Vector α) :=
  (Front v).map (fun r => (r, v))

/-- `Back` as a state-passing method. -/
def BackM [Inhabited α] (v : Vector α) : Option ((α × Option String) × Vector α) :=
  (Back v).map (fun r => (r, v))

end VectorGo

namespace VectorGo

/-! ### Helper lemmas about the slice primitives -/

theorem length_writeRange (l : List α) (a : Nat) (p : List α) :
    (writeRange l a p).length = l.length := by
  unfold writeRange
  split
  · simp only [List.length_append, List.length_take, List.length_drop]
    omega
  · rfl

theorem writeRange_eq (l : List α) (a : Nat) (p : List α) (h : a + p.length ≤ l.length) :
    writeRange l a p = l.take a ++ p ++ l.drop (a + p.length) := by
  unfold writeRange
  exact if_pos h

theorem length_readRange (l : List α) (a n : Nat) :
    (readRange l a n).length = min n (l.length - a) := by
  unfold readRange
  simp [List.length_take, List.length_drop]

theorem readRange_zero (l : List α) (n : Nat) : readRange l 0 n = l.take n := by
  unfold readRange
  rw [List.drop_zero]

theorem take_set_of_le (l : List α) (n : Nat) (x : α) (m : Nat) (h : m ≤ n) :
    (l.set n x).take m = l.take m := by
  rw [List.set_take]
  exact List.set_eq_of_length_le (by simp [List.length_take]; omega)

theorem logical_length (v : Vector α) (hwf : WF v) : (logical v).length = v.size := by
  unfold logical
  simp only [List.length_take]
  obtain ⟨h1, h2⟩ := hwf
  omega

/-! ### Claim theorems -/

/-- The operation chain `New()`, `PushBack(0)`, `PopBack()`, `Insert(0, 5)`,
`Resize(2, 99)`: only public operations, starting from the empty vector. -/
def c1Chain : Option (Vector Int) := do
  let a ← PushBack (New []) 0
  let b := (PopBack a).2
  let p ← Insert b 0 5
  Resize p.2 2 99

/-- Claim C1: the size/capacity invariant `0 ≤ size ≤ capacity` is violated in
reachable states.  After `New(); PushBack(0); PopBack(); Insert(0,5);
Resize(2,99)` the vector reports `Size() = 2` and `Capacity() = 1`: `Insert`
lets the builtin `append` reallocate without updating the `capacity` field,
and `Resize` compares against `cap(v.data)` rather than the field, so it
skips `reserve` and leaves `capacity < size`.  A second violation:
`New(WithValues(1), WithCapacity(0))` yields `Size() = 1`, `Capacity() = 0`,
because `WithCapacity` replaces the storage without adjusting `size`. -/
theorem c1_invariant_violated :
    c1Chain.map (fun v => (Size v, Capacity v)) = some (2, 1) ∧
    Size (New (α := Int) [.withValues [1], .withCapacity 0]) = 1 ∧
    Capacity (New (α := Int) [.withValues [1], .withCapacity 0]) = 0 := by
  refine ⟨?_, rfl, rfl⟩
  rfl

/-- Claim C2, counterexample: in the reachable state
`New(WithValues(1), WithCapacity(0))` (size 1, but the slice has length 0),
`At(0)` passes the `0 ≤ index < size` bounds check and then reads
`v.data[0]`, which is out of range for the slice — a Go runtime panic
(modelled as `none`), refuting "in no reachable state and for no index does
At panic". -/
theorem c2_at_panic_cex :
    At (New (α := Int) [.withValues [1], .withCapacity 0]) 0 = none := by
  rfl

/-- Claim C2 (amended): for every vector state whose size is at most its
slice length (true of all states not produced by a `WithCapacity` option
shrinking the slice below `size`), `At(index)` returns the element stored at
`index` when `0 ≤ index < size`, otherwise returns the OutOfBounds error
(with the zero value), and never panics. -/
theorem c2_at_spec [Inhabited α] (v : Vector α) (hwf : WF v) (i : Int) :
    ((i < 0 ∨ (v.size : Int) ≤ i) →
      At v i = some (default, some "index out of bounds")) ∧
    (0 ≤ i → i < (v.size : Int) →
      ∃ x, v.data.buf.get? i.toNat = some x ∧ At v i = some (x, none)) ∧
    At v i ≠ none := by
  obtain ⟨h1, h2⟩ := hwf
  unfold At
  by_cases h : i < 0 ∨ (v.size : Int) ≤ i
  · rw [if_pos h]
    refine ⟨fun _ => rfl, fun ha hb => ?_, by simp⟩
    omega
  · rw [if_neg h]
    push_neg at h
    have hx : ∃ x, v.data.buf.get? i.toNat = some x := by
      have : i.toNat < v.data.buf.length := by omega
      exact ⟨v.data.buf.get ⟨i.toNat, this⟩, List.get?_eq_get this⟩
    obtain ⟨x, hx⟩ := hx
    have hs : sindex v.data i = some x := by
      unfold sindex
      rw [if_pos ⟨h.1, by omega⟩]
      exact hx
    rw [hs]
    exact ⟨fun hc => absurd hc (by omega), fun _ _ => ⟨x, hx, rfl⟩, by simp⟩

/-- Claim C2, witness: a concrete well-formed vector on which the amended
theorem applies. -/
theorem c2_at_spec_witness :
    At (New (α := Int) [.withValues [3, 4]]) 1 ≠ none :=
  (c2_at_spec (New [.withValues [3, 4]]) (by decide) 1).2.2

/-- Claim C8: `Clear()` sets size to 0, keeps the capacity field, and keeps
the backing array (no deallocation), so `Capacity()` afterwards reports the
pre-Clear capacity. -/
theorem c8_clear_spec (v : Vector α) :
    Size (Clear v) = 0 ∧ Capacity (Clear v) = Capacity v ∧
    (Clear v).data.buf = v.data.buf := ⟨rfl, rfl, rfl⟩

/-- Claim C9: a self-swap leaves the vector unchanged (Go evaluates both
sides of each parallel assignment before assigning, so `v.Swap(v)` writes
every field back to itself): same size, capacity, and element sequence. -/
theorem c9_swap_self (v : Vector α) : Swap v v = (v, v) := rfl

/-- Claim C10: the query operations never modify the vector: whenever a call
to `At`, `Front` or `Back` completes (with a value or with an error), the
receiver state after the call equals the state before it. -/
theorem c10_queries_pure [Inhabited α] (v : Vector α) (i : Int) :
    (∀ r w, AtM v i = some (r, w) → w = v) ∧
    (∀ r w, FrontM v = some (r, w) → w = v) ∧
    (∀ r w, BackM v = some (r, w) → w = v) := by
  refine ⟨?_, ?_, ?_⟩ <;> intro r w h
  · obtain ⟨a, _, ha⟩ := Option.map_eq_some'.mp h
    exact ((Prod.mk.injEq .. ▸ ha).2).symm
  · obtain ⟨a, _, ha⟩ := Option.map_eq_some'.mp h
    exact ((Prod.mk.injEq .. ▸ ha).2).symm
  · obtain ⟨a, _, ha⟩ := Option.map_eq_some'.mp h
    exact ((Prod.mk.injEq .. ▸ ha).2).symm

/-- Claim C10, witness: the theorem applied to a concrete completed call. -/
theorem c10_queries_pure_witness :
    New (α := Int) [Opt.withValues [1]] = New [Opt.withValues [1]] :=
  (c10_queries_pure (New [Opt.withValues [1]]) 0).1 (1, none)
    (New [Opt.withValues [1]]) rfl

end VectorGo

namespace VectorGo

theorem appendMany_spec [Inhabited α] (s : GoSlice α) (hs : s.len ≤ s.buf.length)
    (xs : List α) :
    (appendMany s xs).len = s.len + xs.length ∧
    (appendMany s xs).len ≤ (appendMany s xs).buf.length ∧
    (appendMany s xs).buf.take (s.len + xs.length) = s.buf.take s.len ++ xs := by
  unfold appendMany
  split
  · rename_i h
    refine ⟨rfl, ?_, ?_⟩
    · simp only [length_writeRange]
      exact h
    · rw [writeRange_eq _ _ _ h, List.take_left']
      simp only [List.length_append, List.length_take]
      omega
  · refine ⟨rfl, ?_, ?_⟩
    · simp only [List.length_append, List.length_take, List.length_replicate]
      omega
    · rw [List.take_left']
      simp only [List.length_append, List.length_take]
      omega

/-- Claim C3, counterexample: `New(WithCapacity(2), WithValues(5))` does not
set the contents to exactly `[5]` with `size = capacity = 1`: `WithValues`
appends to the two zero-valued cells `make` created, giving contents
`[0, 0, 5]`, size 3 and capacity 3. -/
theorem c3_withValues_cex :
    Size (New (α := Int) [.withCapacity 2, .withValues [5]]) = 3 ∧
    logical (New (α := Int) [.withCapacity 2, .withValues [5]]) = [0, 0, 5] ∧
    Capacity (New (α := Int) [.withCapacity 2, .withValues [5]]) = 3 ∧
    ¬ Size (New (α := Int) [.withCapacity 2, .withValues [5]]) = 1 := by
  refine ⟨rfl, rfl, rfl, ?_⟩
  decide

/-- Claim C3 (amended): `withValues(v1..vk)` appends the values to the
current slice: the new size is the previous slice length plus `k`, the
contents become the previous slice contents followed by `v1..vk`, and the
capacity field becomes `max(previous capacity, new size)`.  Only when the
previous slice is empty (as when `withValues` is the first option) are the
contents exactly `v1..vk` with size `k`, and `size = capacity = k` addition-
ally needs the previous capacity to be at most `k`; after an earlier
`withCapacity(n)` with `n > 0` the claim fails. -/
theorem c3_withValues_spec [Inhabited α] (v : Vector α)
    (hs : v.data.len ≤ v.data.buf.length) (vs : List α) :
    Size (applyOpt v (.withValues vs)) = v.data.len + vs.length ∧
    logical (applyOpt v (.withValues vs)) = v.data.buf.take v.data.len ++ vs ∧
    Capacity (applyOpt v (.withValues vs)) = max v.capacity (v.data.len + vs.length) := by
  obtain ⟨h1, h2, h3⟩ := appendMany_spec v.data hs vs
  refine ⟨h1, ?_, ?_⟩
  · unfold logical
    show (appendMany v.data vs).buf.take (appendMany v.data vs).len = _
    rw [h1]
    exact h3
  · show (if v.capacity < (appendMany v.data vs).len then (appendMany v.data vs).len
      else v.capacity) = _
    rw [h1]
    split <;> omega

/-- Claim C3, witness: the amended theorem applied to the empty vector. -/
theorem c3_withValues_spec_witness :
    Size (applyOpt (New (α := Int) []) (Opt.withValues [1, 2])) =
      (New (α := Int) []).data.len + [(1 : Int), 2].length :=
  (c3_withValues_spec (New []) (by decide) [1, 2]).1

/-- Claim C7, counterexample: in the reachable state
`New(WithValues(7), WithCapacity(0))` the size is 1 (> 0), yet `Front()`
does not return the element: it reads `v.data[0]` on a slice of length 0
and panics (modelled as `none`). -/
theorem c7_front_panic_cex :
    Front (New (α := Int) [.withValues [7], .withCapacity 0]) = none := by
  rfl

/-- Claim C7 (amended): on any vector with size 0 each of `Front`, `Back`
and `PopBack` returns the EmptyContainer error; on a vector with positive
size whose size is at most its slice length (all states not produced by a
`WithCapacity` option shrinking the slice below `size`), none of them
returns an error: `Front`/`Back` return the elements at index 0 and
`size-1`, and `PopBack` decrements the size by one. -/
theorem c7_empty_container_spec [Inhabited α] (v : Vector α) (hwf : WF v) :
    (v.size = 0 →
      Front v = some (default, some "vector is empty") ∧
      Back v = some (default, some "vector is empty") ∧
      PopBack v = (some "vector is empty", v)) ∧
    (0 < v.size →
      (∃ x, v.data.buf.get? 0 = some x ∧ Front v = some (x, none)) ∧
      (∃ y, v.data.buf.get? (v.size - 1) = some y ∧ Back v = some (y, none)) ∧
      (PopBack v).1 = none ∧ (PopBack v).2.size = v.size - 1) := by
  obtain ⟨h1, h2⟩ := hwf
  constructor
  · intro h0
    refine ⟨?_, ?_, ?_⟩
    · unfold Front
      rw [if_pos h0]
    · unfold Back
      rw [if_pos h0]
    · unfold PopBack
      rw [if_pos h0]
  · intro hpos
    have hne : ¬ v.size = 0 := by omega
    have hf : (0 : Nat) < v.data.buf.length := by omega
    have hb : v.size - 1 < v.data.buf.length := by omega
    refine ⟨⟨v.data.buf.get ⟨0, hf⟩, List.get?_eq_get hf, ?_⟩,
      ⟨v.data.buf.get ⟨v.size - 1, hb⟩, List.get?_eq_get hb, ?_⟩, ?_, ?_⟩
    · unfold Front
      rw [if_neg hne]
      have : sindex v.data 0 = v.data.buf.get? 0 := by
        unfold sindex
        rw [if_pos ⟨le_refl 0, by omega⟩]
        rfl
      rw [this, List.get?_eq_get hf]
      rfl
    · unfold Back
      rw [if_neg hne]
      have : sindex v.data ((v.size : Int) - 1) = v.data.buf.get? (v.size - 1) := by
        unfold sindex
        rw [if_pos ⟨by omega, by omega⟩]
        congr 1
        omega
      rw [this, List.get?_eq_get hb]
      rfl
    · unfold PopBack
      rw [if_neg hne]
    · unfold PopBack
      rw [if_neg hne]

/-- Claim C7, witness: the amended theorem applied to concrete vectors on
both sides (an empty one and a non-empty one). -/
theorem c7_empty_container_spec_witness :
    PopBack (New (α := Int) []) = (some "vector is empty", New (α := Int) []) ∧
    (PopBack (New (α := Int) [.withValues [1, 2]])).1 = none :=
  ⟨((c7_empty_container_spec (New []) (by decide)).1 rfl).2.2,
   ((c7_empty_container_spec (New [.withValues [1, 2]]) (by decide)).2 (by decide)).2.2.1⟩

end VectorGo

namespace VectorGo

theorem reserveImpl_ok [Inhabited α] (v : Vector α) (hwf : WF v) (nc : Nat)
    (h : v.size ≤ nc) :
    reserveImpl v nc =
      some { data := ⟨logical v ++ List.replicate (nc - v.size) default, v.size⟩,
             size := v.size, capacity := nc } ∧
    (logical v ++ List.replicate (nc - v.size) default).length = nc := by
  obtain ⟨h1, h2⟩ := hwf
  constructor
  · unfold reserveImpl
    rw [if_pos h]
    have hmin : min v.size v.data.len = v.size := by omega
    rw [hmin, readRange_zero]
    rfl
  · simp only [List.length_append, List.length_replicate, logical, List.length_take]
    omega

/-- Claim C6, counterexample: in the reachable state
`New(WithValues(1,2), WithCapacity(0))` (size 2, empty backing array),
`Resize(1, 0)` calls the internal `reserve(1)`, whose
`make([]T, v.size, newCapacity)` has `len 2 > cap 1` — a Go runtime panic
(modelled as `none`), so the resize does not leave `size = 1` as the claim
requires. -/
theorem c6_resize_panic_cex :
    Resize (New (α := Int) [.withValues [1, 2], .withCapacity 0]) 1 0 = none := by
  rfl

/-- Claim C6 (amended): for every vector state whose size fits in its slice
and whose `capacity` field agrees with `cap(v.data)` (the code compares the
requested size against `cap(v.data)`, which can drift from the field),
`Resize(n, fillValue)` succeeds; it clamps negative `n` to 0, reallocates to
capacity `n` exactly when `n` exceeds the current capacity (otherwise the
capacity is unchanged), sets size to the clamped `n`, keeps the elements at
indices `[0, min(oldSize, n))`, fills `[oldSize, n)` with `fillValue` when
growing, and truncates without filling when shrinking. -/
theorem c6_resize_spec [Inhabited α] (v : Vector α) (hwf : WF v)
    (hcap : v.capacity = v.data.cap) (n : Int) (x : α) :
    ∃ w, Resize v n x = some w ∧
      w.size = n.toNat ∧
      (n < 0 → w.size = 0) ∧
      ((v.capacity : Int) < n → w.capacity = n.toNat ∧ w.data.buf.length = n.toNat) ∧
      (n ≤ (v.capacity : Int) → w.capacity = v.capacity) ∧
      readRange w.data.buf 0 (min v.size n.toNat) =
        readRange v.data.buf 0 (min v.size n.toNat) ∧
      (v.size < n.toNat →
        readRange w.data.buf v.size (n.toNat - v.size) =
          List.replicate (n.toNat - v.size) x) ∧
      (n.toNat ≤ v.size → logical w = (logical v).take n.toNat) := by
  obtain ⟨h1, h2⟩ := hwf
  unfold GoSlice.cap at hcap
  have hclamp : (if n < 0 then (0 : Int) else n).toNat = n.toNat := by
    split <;> omega
  have hloglen : (logical v).length = v.size := by
    simp only [logical, List.length_take]
    omega
  simp only [Resize, hclamp]
  by_cases hA : v.data.cap < n.toNat
  · -- n exceeds cap(v.data): the reserve path
    rw [if_pos hA]
    unfold GoSlice.cap at hA
    have hsz : v.size ≤ n.toNat := by omega
    obtain ⟨e1, hlen1⟩ := reserveImpl_ok v ⟨h1, h2⟩ n.toNat hsz
    rw [e1]
    simp only [Option.bind_eq_bind, Option.some_bind]
    rw [show sslice (⟨logical v ++ List.replicate (n.toNat - v.size) default,
        v.size⟩ : GoSlice α) ((n.toNat : Nat) : Int) =
        some ⟨logical v ++ List.replicate (n.toNat - v.size) default, n.toNat⟩ by
      unfold sslice
      rw [if_pos ⟨by omega,
        by unfold GoSlice.cap; simp only [hlen1]; omega⟩]
      rfl]
    simp only [Option.some_bind]
    by_cases hfill : v.size < n.toNat
    · rw [if_pos hfill]
      rw [show fillRange (⟨logical v ++ List.replicate (n.toNat - v.size) default,
          n.toNat⟩ : GoSlice α) v.size n.toNat x =
          some ⟨writeRange (logical v ++ List.replicate (n.toNat - v.size) default)
            v.size (List.replicate (n.toNat - v.size) x), n.toNat⟩ by
        unfold fillRange
        rw [if_pos (le_refl _)]]
      simp only [Option.some_bind]
      have hw : writeRange (logical v ++ List.replicate (n.toNat - v.size) default)
          v.size (List.replicate (n.toNat - v.size) x) =
          (logical v ++ List.replicate (n.toNat - v.size) x) ++
            (logical v ++ List.replicate (n.toNat - v.size) default).drop n.toNat := by
        rw [writeRange_eq _ _ _
          (by simp only [List.length_replicate, List.length_append, hloglen]; omega)]
        simp only [List.length_replicate]
        rw [List.take_append_of_le_length (by omega), List.take_of_length_le (by omega),
          show v.size + (n.toNat - v.size) = n.toNat by omega]
      refine ⟨_, rfl, rfl, fun hneg => by show n.toNat = 0; omega, fun hgt => ⟨rfl, ?_⟩,
        fun hle => by exfalso; omega, ?_, fun hgrow => ?_,
        fun hshrink => by exfalso; omega⟩
      · simp only [length_writeRange, List.length_append, List.length_replicate, hloglen]
        omega
      · have hm : min v.size n.toNat = v.size := by omega
        rw [hm]
        show List.take v.size (writeRange _ _ _) = List.take v.size v.data.buf
        rw [hw, List.append_assoc, List.take_append_of_le_length (by omega),
          List.take_of_length_le (by omega)]
        rfl
      · show ((writeRange _ _ _).drop v.size).take (n.toNat - v.size) = _
        rw [hw, List.append_assoc, List.drop_left' hloglen,
          List.take_append_of_le_length (by simp),
          List.take_of_length_le (by simp)]
    · exfalso
      omega
  · -- n fits under cap(v.data): no reallocation
    rw [if_neg hA]
    unfold GoSlice.cap at hA
    simp only [Option.bind_eq_bind, Option.some_bind]
    rw [show sslice v.data ((n.toNat : Nat) : Int) = some ⟨v.data.buf, n.toNat⟩ by
      unfold sslice
      rw [if_pos ⟨by omega, by unfold GoSlice.cap; omega⟩]
      rfl]
    simp only [Option.some_bind]
    by_cases hfill : v.size < n.toNat
    · rw [if_pos hfill]
      rw [show fillRange (⟨v.data.buf, n.toNat⟩ : GoSlice α) v.size n.toNat x =
          some ⟨writeRange v.data.buf v.size (List.replicate (n.toNat - v.size) x),
            n.toNat⟩ by
        unfold fillRange
        rw [if_pos (le_refl _)]]
      simp only [Option.some_bind]
      have hw : writeRange v.data.buf v.size (List.replicate (n.toNat - v.size) x) =
          (logical v ++ List.replicate (n.toNat - v.size) x) ++
            v.data.buf.drop n.toNat := by
        rw [writeRange_eq _ _ _ (by simp only [List.length_replicate]; omega)]
        simp only [List.length_replicate]
        rw [show v.size + (n.toNat - v.size) = n.toNat by omega]
        rfl
      refine ⟨_, rfl, rfl, fun hneg => by show n.toNat = 0; omega, fun hgt => by exfalso; omega,
        fun hle => rfl, ?_, fun hgrow => ?_, fun hshrink => by exfalso; omega⟩
      · have hm : min v.size n.toNat = v.size := by omega
        rw [hm]
        show List.take v.size (writeRange _ _ _) = List.take v.size v.data.buf
        rw [hw, List.append_assoc, List.take_append_of_le_length (by omega),
          List.take_of_length_le (by omega)]
        rfl
      · show ((writeRange _ _ _).drop v.size).take (n.toNat - v.size) = _
        rw [hw, List.append_assoc, List.drop_left' hloglen,
          List.take_append_of_le_length (by simp),
          List.take_of_length_le (by simp)]
    · rw [if_neg hfill]
      simp only [Option.some_bind]
      refine ⟨_, rfl, rfl, fun hneg => by show n.toNat = 0; omega, fun hgt => by exfalso; omega,
        fun hle => rfl, rfl, fun hgrow => by exfalso; omega, fun hshrink => ?_⟩
      show List.take n.toNat v.data.buf = List.take n.toNat (List.take v.size v.data.buf)
      rw [List.take_take]
      congr 1
      omega

/-- Claim C6, witness: the amended theorem at a concrete well-formed
vector. -/
theorem c6_resize_spec_witness :
    ∃ w, Resize (New (α := Int) [.withValues [1, 2]]) 5 0 = some w ∧
      w.size = (5 : Int).toNat ∧
      ((5 : Int) < 0 → w.size = 0) ∧
      ((Capacity (New (α := Int) [.withValues [1, 2]]) : Int) < 5 →
        w.capacity = (5 : Int).toNat ∧ w.data.buf.length = (5 : Int).toNat) ∧
      ((5 : Int) ≤ (Capacity (New (α := Int) [.withValues [1, 2]]) : Int) →
        w.capacity = Capacity (New (α := Int) [.withValues [1, 2]])) ∧
      readRange w.data.buf 0
          (min (New (α := Int) [.withValues [1, 2]]).size (5 : Int).toNat) =
        readRange (New (α := Int) [.withValues [1, 2]]).data.buf 0
          (min (New (α := Int) [.withValues [1, 2]]).size (5 : Int).toNat) ∧
      ((New (α := Int) [.withValues [1, 2]]).size < (5 : Int).toNat →
        readRange w.data.buf (New (α := Int) [.withValues [1, 2]]).size
            ((5 : Int).toNat - (New (α := Int) [.withValues [1, 2]]).size) =
          List.replicate ((5 : Int).toNat - (New (α := Int) [.withValues [1, 2]]).size) 0) ∧
      ((5 : Int).toNat ≤ (New (α := Int) [.withValues [1, 2]]).size →
        logical w = (logical (New (α := Int) [.withValues [1, 2]])).take (5 : Int).toNat) :=
  c6_resize_spec (New [.withValues [1, 2]]) (by decide) (by decide) 5 0

end VectorGo

namespace VectorGo

theorem appendOne_facts [Inhabited α] (s : GoSlice α) (x : α) (hs : s.len ≤ s.buf.length) :
    (appendOne s x).len = s.len + 1 ∧
    (appendOne s x).len ≤ (appendOne s x).buf.length ∧
    (appendOne s x).buf.take s.len = s.buf.take s.len := by
  unfold appendOne
  split
  · rename_i h
    unfold GoSlice.cap at h
    refine ⟨rfl, ?_, ?_⟩
    · simp only [List.length_set]
      omega
    · exact take_set_of_le _ _ _ _ (le_refl s.len)
  · rename_i h
    unfold GoSlice.cap at h
    refine ⟨rfl, ?_, ?_⟩
    · simp only [List.length_append, List.length_take, List.length_replicate,
        List.length_cons, List.length_nil]
      unfold goGrow
      omega
    · rw [List.append_assoc,
        List.take_append_of_le_length (by simp only [List.length_take]; omega),
        List.take_take, Nat.min_self]

theorem grow_step_ok [Inhabited α] (v : Vector α) (hwf : WF v) :
    ∃ v1, (if v.size = v.data.cap then reserveImpl v (growCapacity v) else some v) =
        some v1 ∧
      v1.size = v.size ∧ WF v1 ∧
      v1.data.buf.take v.size = v.data.buf.take v.size := by
  obtain ⟨h1, h2⟩ := hwf
  have hL : (logical v).length = v.size := logical_length v ⟨h1, h2⟩
  by_cases h : v.size = v.data.cap
  · rw [if_pos h]
    unfold GoSlice.cap at h
    have hg : v.size ≤ growCapacity v := by
      unfold growCapacity GoSlice.cap
      split <;> omega
    obtain ⟨e1, hlen⟩ := reserveImpl_ok v ⟨h1, h2⟩ (growCapacity v) hg
    rw [e1]
    refine ⟨_, rfl, rfl, ⟨le_refl _, ?_⟩, ?_⟩
    · show v.size ≤ (logical v ++ _).length
      rw [hlen]
      exact hg
    · show (logical v ++ _).take v.size = _
      rw [List.take_append_of_le_length (le_of_eq hL.symm)]
      show (v.data.buf.take v.size).take v.size = _
      rw [List.take_take, Nat.min_self]
  · rw [if_neg h]
    exact ⟨v, rfl, rfl, ⟨h1, h2⟩, rfl⟩

theorem insert_ok [Inhabited α] (v : Vector α) (hwf : WF v) (i : Int) (h0 : 0 ≤ i)
    (hi : i ≤ (v.size : Int)) (x : α) :
    ∃ w, Insert v i x = some (none, w) ∧ WF w ∧ w.size = v.size + 1 ∧
      logical w = (logical v).take i.toNat ++ x :: (logical v).drop i.toNat := by
  obtain ⟨h1, h2⟩ := hwf
  have hL : (logical v).length = v.size := logical_length v ⟨h1, h2⟩
  have hjs : i.toNat ≤ v.size := by omega
  unfold Insert
  rw [if_neg (by omega)]
  obtain ⟨v1, e1, f1, ⟨g1, g2⟩, ftake⟩ := grow_step_ok v ⟨h1, h2⟩
  rw [e1]
  simp only [Option.bind_eq_bind, Option.some_bind]
  obtain ⟨a1, a2, a3⟩ := appendOne_facts v1.data default g2
  have hv1 : v.size ≤ v1.data.len := f1 ▸ g1
  have htake2 : (appendOne v1.data default).buf.take v.size = v.data.buf.take v.size := by
    calc (appendOne v1.data default).buf.take v.size
        = ((appendOne v1.data default).buf.take v1.data.len).take v.size := by
          rw [List.take_take]
          congr 1
          omega
      _ = (v1.data.buf.take v1.data.len).take v.size := by rw [a3]
      _ = v1.data.buf.take v.size := by
          rw [List.take_take]
          congr 1
          omega
      _ = v.data.buf.take v.size := ftake
  rw [show copyWithin (appendOne v1.data default) (i.toNat + 1) i.toNat v.size =
      some ⟨writeRange (appendOne v1.data default).buf (i.toNat + 1)
        (readRange (appendOne v1.data default).buf i.toNat (v.size - i.toNat)),
        (appendOne v1.data default).len⟩ by
    unfold copyWithin
    rw [if_pos ⟨by omega, by omega, by unfold GoSlice.cap; omega⟩,
      show min ((appendOne v1.data default).len - (i.toNat + 1)) (v.size - i.toNat) =
        v.size - i.toNat from by omega]]
  simp only [Option.some_bind]
  rw [show sset (⟨writeRange (appendOne v1.data default).buf (i.toNat + 1)
      (readRange (appendOne v1.data default).buf i.toNat (v.size - i.toNat)),
      (appendOne v1.data default).len⟩ : GoSlice α) i x =
      some ⟨(writeRange (appendOne v1.data default).buf (i.toNat + 1)
        (readRange (appendOne v1.data default).buf i.toNat (v.size - i.toNat))).set
          i.toNat x, (appendOne v1.data default).len⟩ by
    unfold sset
    rw [if_pos ⟨h0, by show i < ((appendOne v1.data default).len : Int); omega⟩]]
  simp only [Option.some_bind]
  have hP : readRange (appendOne v1.data default).buf i.toNat (v.size - i.toNat) =
      (logical v).drop i.toNat := by
    unfold readRange
    rw [List.take_drop, show i.toNat + (v.size - i.toNat) = v.size from by omega, htake2]
    rfl
  have hbw : writeRange (appendOne v1.data default).buf (i.toNat + 1)
      ((logical v).drop i.toNat) =
      ((appendOne v1.data default).buf.take (i.toNat + 1) ++ (logical v).drop i.toNat) ++
        (appendOne v1.data default).buf.drop (v.size + 1) := by
    rw [writeRange_eq _ _ _ (by simp only [List.length_drop, hL]; omega),
      show (i.toNat + 1) + ((logical v).drop i.toNat).length = v.size + 1 from by
        simp only [List.length_drop, hL]; omega]
  refine ⟨_, rfl, ⟨?_, ?_⟩, rfl, ?_⟩
  · show v.size + 1 ≤ (appendOne v1.data default).len
    omega
  · show (appendOne v1.data default).len ≤ (List.set _ _ _).length
    simp only [List.length_set, length_writeRange]
    exact a2
  · show List.take (v.size + 1) ((writeRange _ _ _).set i.toNat x) = _
    rw [hP, hbw,
      List.set_append_left _ _ (by
        simp only [List.length_append, List.length_take, List.length_drop, hL]
        omega),
      List.set_append_left _ _ (by
        simp only [List.length_take]
        omega),
      List.take_left' (by
        simp only [List.length_append, List.length_set, List.length_take,
          List.length_drop, hL]
        omega),
      List.set_eq_take_cons_drop x (by
        simp only [List.length_take]
        omega),
      List.take_take, Nat.min_eq_left (by omega),
      List.drop_eq_nil_of_le (by simp only [List.length_take]; omega)]
    have hfront : (appendOne v1.data default).buf.take i.toNat = (logical v).take i.toNat := by
      calc (appendOne v1.data default).buf.take i.toNat
          = ((appendOne v1.data default).buf.take v.size).take i.toNat := by
            rw [List.take_take]
            congr 1
            omega
        _ = (v.data.buf.take v.size).take i.toNat := by rw [htake2]
        _ = (logical v).take i.toNat := rfl
    rw [hfront]
    simp

theorem erase_ok (v : Vector α) (hwf : WF v) (i : Int) (h0 : 0 ≤ i)
    (hi : i < (v.size : Int)) :
    ∃ w, Erase v i = some (none, w) ∧ WF w ∧ w.size = v.size - 1 ∧
      logical w = (logical v).take i.toNat ++ (logical v).drop (i.toNat + 1) := by
  obtain ⟨h1, h2⟩ := hwf
  have hL : (logical v).length = v.size := logical_length v ⟨h1, h2⟩
  have hjs : i.toNat < v.size := by omega
  unfold Erase
  rw [if_neg (by omega)]
  rw [show copyWithin v.data i.toNat (i.toNat + 1) v.size =
      some ⟨writeRange v.data.buf i.toNat
        (readRange v.data.buf (i.toNat + 1) (v.size - (i.toNat + 1))), v.data.len⟩ by
    unfold copyWithin
    rw [if_pos ⟨by omega, by omega, by unfold GoSlice.cap; omega⟩,
      show min (v.data.len - i.toNat) (v.size - (i.toNat + 1)) =
        v.size - (i.toNat + 1) from by omega]]
  simp only [Option.bind_eq_bind, Option.some_bind]
  rw [show sslice (⟨writeRange v.data.buf i.toNat
      (readRange v.data.buf (i.toNat + 1) (v.size - (i.toNat + 1))), v.data.len⟩ :
        GoSlice α) ((v.size : Int) - 1) =
      some ⟨writeRange v.data.buf i.toNat
        (readRange v.data.buf (i.toNat + 1) (v.size - (i.toNat + 1))), v.size - 1⟩ by
    unfold sslice
    rw [if_pos ⟨by omega, by
        unfold GoSlice.cap
        simp only [length_writeRange]
        omega⟩,
      show ((v.size : Int) - 1).toNat = v.size - 1 from by omega]]
  simp only [Option.some_bind]
  have hQ : readRange v.data.buf (i.toNat + 1) (v.size - (i.toNat + 1)) =
      (logical v).drop (i.toNat + 1) := by
    unfold readRange
    rw [List.take_drop, show (i.toNat + 1) + (v.size - (i.toNat + 1)) = v.size from by omega]
    rfl
  have hbw : writeRange v.data.buf i.toNat ((logical v).drop (i.toNat + 1)) =
      (v.data.buf.take i.toNat ++ (logical v).drop (i.toNat + 1)) ++
        v.data.buf.drop (v.size - 1) := by
    rw [writeRange_eq _ _ _ (by simp only [List.length_drop, hL]; omega),
      show i.toNat + ((logical v).drop (i.toNat + 1)).length = v.size - 1 from by
        simp only [List.length_drop, hL]; omega]
  refine ⟨_, rfl, ⟨le_refl _, ?_⟩, rfl, ?_⟩
  · show v.size - 1 ≤ (writeRange _ _ _).length
    simp only [length_writeRange]
    omega
  · show List.take (v.size - 1) (writeRange _ _ _) = _
    rw [hQ, hbw,
      List.take_left' (by
        simp only [List.length_append, List.length_take, List.length_drop, hL]
        omega)]
    have hfront : v.data.buf.take i.toNat = (logical v).take i.toNat := by
      show _ = (v.data.buf.take v.size).take i.toNat
      rw [List.take_take]
      congr 1
      omega
    rw [hfront]

/-- Claim C4, counterexample: in the reachable state
`New(WithValues(1,2,3), WithCapacity(1))` (size 3, slice length 1), the call
`Insert(0, 9)` — with `0 ≤ 0 ≤ size` — panics: the shift
`copy(v.data[index+1:], v.data[index:v.size])` slices the backing array
beyond its capacity.  The insert step therefore does not succeed, refuting
the claim at this reachable state. -/
theorem c4_insert_panic_cex :
    Insert (New (α := Int) [.withValues [1, 2, 3], .withCapacity 1]) 0 9 = none := by
  rfl

/-- Claim C4 (amended): for every vector state whose size fits in its slice
(true of all states not produced by a `WithCapacity` option shrinking the
slice below `size`), every index `0 ≤ i ≤ size` and every value `x`,
`Insert(i, x)` and then `Erase(i)` both succeed and restore exactly the
prior logical element sequence and the prior size. -/
theorem c4_insert_erase_inverse [Inhabited α] (v : Vector α) (hwf : WF v) (i : Int)
    (h0 : 0 ≤ i) (hi : i ≤ (v.size : Int)) (x : α) :
    ∃ w1 w2, Insert v i x = some (none, w1) ∧ Erase w1 i = some (none, w2) ∧
      logical w2 = logical v ∧ w2.size = v.size := by
  obtain ⟨w1, hIns, hwf1, hsz1, hlog1⟩ := insert_ok v hwf i h0 hi x
  obtain ⟨w2, hEr, hwf2, hsz2, hlog2⟩ := erase_ok w1 hwf1 i h0 (by omega)
  refine ⟨w1, w2, hIns, hEr, ?_, by omega⟩
  rw [hlog2, hlog1]
  have hL : (logical v).length = v.size := logical_length v hwf
  have hjs : i.toNat ≤ v.size := by omega
  have t1 : ((logical v).take i.toNat ++ x :: (logical v).drop i.toNat).take i.toNat =
      (logical v).take i.toNat := by
    rw [List.take_append_of_le_length (by simp only [List.length_take]; omega),
      List.take_take, Nat.min_self]
  have t2 : ((logical v).take i.toNat ++ x :: (logical v).drop i.toNat).drop
      (i.toNat + 1) = (logical v).drop i.toNat := by
    rw [show (logical v).take i.toNat ++ x :: (logical v).drop i.toNat =
        ((logical v).take i.toNat ++ [x]) ++ (logical v).drop i.toNat from by simp,
      List.drop_left' (by simp only [List.length_append, List.length_take,
        List.length_cons, List.length_nil]; omega)]
  rw [t1, t2, List.take_append_drop]

/-- Claim C4, witness: the amended theorem at a concrete well-formed
vector. -/
theorem c4_insert_erase_inverse_witness :
    ∃ w1 w2, Insert (New (α := Int) [.withValues [1, 2, 3]]) 1 9 = some (none, w1) ∧
      Erase w1 1 = some (none, w2) ∧
      logical w2 = logical (New (α := Int) [.withValues [1, 2, 3]]) ∧
      w2.size = (New (α := Int) [.withValues [1, 2, 3]]).size :=
  c4_insert_erase_inverse (New [.withValues [1, 2, 3]]) (by decide) 1 (by decide)
    (by decide) 9

end VectorGo

namespace VectorGo

/-- One `PushBack(0)` step paired with a reallocation counter: the counter
increments exactly when the push finds `size == cap(v.data)`, which is the
condition under which `PushBack` calls the reallocating `reserve`. -/
def pushCountStep (st : Vector Int × Nat) : Option (Vector Int × Nat) :=
  (PushBack st.1 0).map
    (fun w => (w, st.2 + if st.1.size = st.1.data.cap then 1 else 0))

/-- `n` `PushBack(0)` calls starting from the empty vector `New()`, together
with the number of reallocations performed. -/
def pushN : Nat → Option (Vector Int × Nat)
  | 0 => some (New [], 0)
  | n + 1 => (pushN n).bind pushCountStep

/-- Claim C5: starting from `New()` (size 0, capacity 0), a sequence of `n`
`PushBack` calls never panics; afterwards `size = n` and the capacity is 0
for `n = 0` and otherwise the unique power of two `2^k` with
`n ≤ 2^k < 2n` — i.e. the capacity runs through exactly 0, 1, 2, 4, 8, ….
The number of reallocations is `k + 1 ≤ log2(n) + 2` (so O(log n)); growth
happens only when a push finds `size = cap(v.data)`, by the definition of
`pushCountStep`, and each growth goes to 1 from capacity 0 and doubles
otherwise. -/
theorem c5_pushback_growth (n : Nat) :
    ∃ v c, pushN n = some (v, c) ∧ v.size = n ∧ v.data.len = n ∧
      v.data.buf.length = v.capacity ∧
      (n = 0 → v.capacity = 0 ∧ c = 0) ∧
      (1 ≤ n → ∃ k, v.capacity = 2 ^ k ∧ n ≤ 2 ^ k ∧ 2 ^ k < 2 * n ∧ c = k + 1) := by
  induction n with
  | zero =>
    exact ⟨New [], 0, rfl, rfl, rfl, rfl, fun _ => ⟨rfl, rfl⟩,
      fun h => absurd h (by omega)⟩
  | succ n ih =>
    obtain ⟨v, c, hp, hsz, hlen, hcapb, hzero, hpos⟩ := ih
    have hwfv : WF v := ⟨by omega, by omega⟩
    rw [show pushN (n + 1) = (pushN n).bind pushCountStep from rfl, hp]
    simp only [Option.some_bind]
    by_cases hfull : v.size = v.data.cap
    · -- the push that finds the slice full: reserve(growCapacity())
      have hcap0 : v.data.buf.length = n := by
        unfold GoSlice.cap at hfull
        omega
      have hgrow : growCapacity v = if n = 0 then 1 else 2 * n := by
        unfold growCapacity GoSlice.cap
        rw [hcap0]
      have hg : v.size ≤ growCapacity v := by
        rw [hgrow]
        split <;> omega
      obtain ⟨e1, hlen1⟩ := reserveImpl_ok v hwfv (growCapacity v) hg
      have hgpos : v.size + 1 ≤ growCapacity v := by
        rw [hgrow]
        split <;> omega
      simp only [pushCountStep, PushBack, if_pos hfull]
      rw [e1]
      simp only [Option.some_bind]
      rw [show sslice (⟨logical v ++ List.replicate (growCapacity v - v.size) default,
          v.size⟩ : GoSlice Int) ((v.size : Int) + 1) =
          some ⟨logical v ++ List.replicate (growCapacity v - v.size) default,
            v.size + 1⟩ by
        unfold sslice
        rw [if_pos ⟨by omega, by unfold GoSlice.cap; simp only [hlen1]; omega⟩]
        rfl]
      simp only [Option.some_bind]
      rw [show sset (⟨logical v ++ List.replicate (growCapacity v - v.size) default,
          v.size + 1⟩ : GoSlice Int) ((v.size : Int)) 0 =
          some ⟨(logical v ++ List.replicate (growCapacity v - v.size) default).set
            v.size 0, v.size + 1⟩ by
        unfold sset
        rw [if_pos ⟨by omega, by show (v.size : Int) < ((v.size + 1 : Nat) : Int); omega⟩]
        rfl]
      simp only [Option.some_bind, Option.map_some']
      refine ⟨_, _, rfl, by show v.size + 1 = n + 1; omega,
        by show v.size + 1 = n + 1; omega, ?_,
        fun h => absurd h (Nat.succ_ne_zero n), fun _ => ?_⟩
      · show ((logical v ++ _).set v.size 0).length = growCapacity v
        simp only [List.length_set]
        exact hlen1
      · by_cases hn0 : n = 0
        · refine ⟨0, ?_, by omega, ?_, ?_⟩
          · show growCapacity v = 2 ^ 0
            rw [hgrow, if_pos hn0, pow_zero]
          · rw [pow_zero]
            omega
          · obtain ⟨hc0, hcc0⟩ := hzero hn0
            show c + 1 = 0 + 1
            omega
        · obtain ⟨k, hk1, hk2, hk3, hk4⟩ := hpos (by omega)
          have hnk : n = 2 ^ k := by omega
          have hp2 : (2 : Nat) ^ (k + 1) = 2 * 2 ^ k := by
            rw [pow_succ]
            ring
          refine ⟨k + 1, ?_, by rw [hp2]; omega, by rw [hp2]; omega,
            by show c + 1 = (k + 1) + 1; omega⟩
          show growCapacity v = 2 ^ (k + 1)
          rw [hgrow, if_neg hn0, hnk, hp2]
    · -- room left in the slice: no reallocation, capacity untouched
      have hne : ¬ n = 0 := by
        intro h0
        obtain ⟨hc0, _⟩ := hzero h0
        apply hfull
        unfold GoSlice.cap
        omega
      obtain ⟨k, hk1, hk2, hk3, hk4⟩ := hpos (by omega)
      have hlt : n < v.data.buf.length := by
        unfold GoSlice.cap at hfull
        omega
      simp only [pushCountStep, PushBack, if_neg hfull]
      simp only [Option.some_bind]
      rw [show sslice v.data ((v.size : Int) + 1) = some ⟨v.data.buf, v.size + 1⟩ by
        unfold sslice
        rw [if_pos ⟨by omega, by unfold GoSlice.cap; omega⟩]
        rfl]
      simp only [Option.some_bind]
      rw [show sset (⟨v.data.buf, v.size + 1⟩ : GoSlice Int) ((v.size : Int)) 0 =
          some ⟨v.data.buf.set v.size 0, v.size + 1⟩ by
        unfold sset
        rw [if_pos ⟨by omega, by show (v.size : Int) < ((v.size + 1 : Nat) : Int); omega⟩]
        rfl]
      simp only [Option.some_bind, Option.map_some']
      refine ⟨_, _, rfl, by show v.size + 1 = n + 1; omega,
        by show v.size + 1 = n + 1; omega, ?_,
        fun h => absurd h (Nat.succ_ne_zero n),
        fun _ => ⟨k, hk1, by omega, by omega, by show c + 0 = k + 1; omega⟩⟩
      show (v.data.buf.set v.size 0).length = v.capacity
      simp only [List.length_set]
      omega

/-- Claim C5, witness: the theorem evaluated after five pushes (capacity 8,
four reallocations). -/
theorem c5_pushback_growth_witness :
    ∃ v c, pushN 5 = some (v, c) ∧ v.size = 5 ∧ v.data.len = 5 ∧
      v.data.buf.length = v.capacity ∧
      (5 = 0 → v.capacity = 0 ∧ c = 0) ∧
      (1 ≤ 5 → ∃ k, v.capacity = 2 ^ k ∧ 5 ≤ 2 ^ k ∧ 2 ^ k < 2 * 5 ∧ c = k + 1) :=
  c5_pushback_growth 5

end VectorGo
